import Mathlib

/-!
Shallow embedding of the MACE autotuner (`mace/utils/tuner.h`) and proofs of
the specification's claims about it.

Modelling conventions:
* `param_type` values are natural numbers; a parameter vector is a `List Nat`
  (the embedding is generic in the value type `P` where nothing depends on it).
* The kernel `func` is an external collaborator.  A run of the program fixes,
  for every kernel invocation `i` (counted globally), the result it returns,
  the timer reading `timer->AccumulatedMicros()` observed right after that
  invocation, and the transformation it applies to the shared output buffer
  `tuning_result`.  These three oracles form the `Kernel` structure.
* Every invocation of `func` is recorded in a trace (`Call`), remembering the
  parameter vector passed and whether the timer / output-buffer pointers were
  non-null.  The global invocation index is the length of the trace.
* `double` time arithmetic is modelled exactly over `ℚ`: `time_us` is an exact
  rational mean of `int64` timer readings.  The `std::numeric_limits<double>::max()`
  initialisation of `opt_time` is modelled as the top element `none : Option ℚ`,
  which is strictly greater than every mean reachable from `int64` totals.
* `param_table_` (`std::unordered_map`) is an association list with unique keys;
  `map[k] = v` is `tableInsert`, `map.find(k)` is `tableFind`.
-/

namespace Mace

/-- One recorded invocation of the kernel `func`: the parameter vector it was
given, and whether the `Timer *` and the `std::vector<param_type> *` output
buffer arguments were non-null. -/
structure Call (P : Type) where
  params : List P
  timed : Bool
  buffered : Bool
  deriving Repr, DecidableEq

/-- The behaviour of the external kernel `func` in one program run, addressed
by the global invocation index: the result returned, the timer reading
`timer->AccumulatedMicros()` (int64 microseconds) observed after the
invocation, and the update the kernel performs on the shared output buffer
`tuning_result`. -/
structure Kernel (P R : Type) where
  result : Nat → List P → R
  time : Nat → Int
  writeBuf : Nat → List P → List P

/-- Mutable context threaded through kernel invocations: the trace of all
invocations so far (its length is the global invocation index) and the current
content of the shared output buffer `tuning_result`. -/
structure KState (P : Type) where
  trace : List (Call P)
  buf : List P
  deriving Repr, DecidableEq

/-- The loop body of `Tuner::Run`: `num_runs` sequential invocations of
`func(params, timer, tuning_result)`, accumulating
`total_time_us += timer->AccumulatedMicros()` and keeping the last result
(`res` is uninitialised before the first iteration, hence `Option`). -/
def runLoop {P R : Type} (k : Kernel P R) (params : List P) :
    Nat → KState P → Int → Option R → Option R × Int × KState P
  | 0, s, tot, res => (res, tot, s)
  | n + 1, s, tot, _ =>
      let i := s.trace.length
      runLoop k params n
        ⟨s.trace ++ [⟨params, true, true⟩], k.writeBuf i s.buf⟩
        (tot + k.time i) (some (k.result i params))

/-- Model of `Tuner::Run`: runs the kernel `numRuns` times and returns the last result
together with `*time_us = total_time_us * 1.0 / num_runs` (exact rational
mean) and the updated context. -/
def Run {P R : Type} (k : Kernel P R) (params : List P) (numRuns : Nat)
    (s : KState P) : Option R × ℚ × KState P :=
  let (res, tot, s') := runLoop k params numRuns s 0 none
  (res, (tot : ℚ) / (numRuns : ℚ), s')

/-- The per-candidate body of the loop in `Tuner::Tune`: a warm-up
`Run(func, param, timer, 2, &tmp_time, &tuning_result)` whose result and mean
time are discarded (the measured `Run` overwrites `tmp_time`), followed by the
measured `Run(func, param, timer, 10, ...)` whose result and mean time are
kept. -/
def runCandidate {P R : Type} (k : Kernel P R) (p : List P) (s : KState P) :
    Option R × ℚ × KState P :=
  let warm := Run k p 2 s
  Run k p 10 warm.2.2

/-- The comparison `tmp_time < opt_time` where `opt_time` was initialised to
`std::numeric_limits<double>::max()`, modelled as the top element `none`. -/
def tlt (t : ℚ) : Option ℚ → Bool
  | none => true
  | some m => decide (t < m)

/-- Accumulator of the loop in `Tuner::Tune`: `opt_time` (`none` is the
`std::numeric_limits<double>::max()` initialisation), the current best result
`res` (`none` is uninitialised), the in/out `*opt_params` vector, and the
kernel-invocation context. -/
structure TuneAcc (P R : Type) where
  optTime : Option ℚ
  res : Option R
  optParams : List P
  st : KState P

/-- The candidate loop of `Tuner::Tune`: for each candidate, warm up, measure,
and on `tmp_time < opt_time` replace `opt_time`, `res` and `*opt_params`
(the latter with the current content of the shared buffer `tuning_result`). -/
def tuneFold {P R : Type} (k : Kernel P R) :
    List (List P) → TuneAcc P R → TuneAcc P R
  | [], acc => acc
  | p :: ps, acc =>
      let step := runCandidate k p acc.st
      if tlt step.2.1 acc.optTime then
        tuneFold k ps ⟨some step.2.1, step.1, step.2.2.buf, step.2.2⟩
      else
        tuneFold k ps ⟨acc.optTime, acc.res, acc.optParams, step.2.2⟩

/-- Outcome of `Tuner::Tune`: the returned result, the final `*opt_params`,
the final `opt_time` and the final invocation context. -/
structure TuneOut (P R : Type) where
  res : Option R
  optParams : List P
  optTime : Option ℚ
  state : KState P

/-- Model of `Tuner::Tune`: obtains the candidate list from the generator (already
evaluated to `gen`), starts from `opt_time = max`, an uninitialised `res`, the
caller-seeded `*opt_params`, and a freshly empty `tuning_result` buffer. -/
def Tune {P R : Type} (k : Kernel P R) (gen : List (List P))
    (optParams0 : List P) (s : KState P) : TuneOut P R :=
  let acc := tuneFold k gen ⟨none, none, optParams0, ⟨s.trace, []⟩⟩
  ⟨acc.res, acc.optParams, acc.optTime, acc.st⟩

/-- The parameter table `param_table_`, an association list with unique keys
(`std::unordered_map<std::string, std::vector<param_type>>`). -/
def Table (P : Type) := List (String × List P)

/-- The lookup `param_table_.find(key)` (also the feel of `param_table_[key]` on a key
known to be present). -/
def tableFind {P : Type} (key : String) : Table P → Option (List P)
  | [] => none
  | (k, v) :: t => if k = key then some v else tableFind key t

/-- The assignment `param_table_[key] = v`: replaces the entry if the key is present,
appends it otherwise. -/
def tableInsert {P : Type} (key : String) (v : List P) :
    Table P → Table P
  | [] => [(key, v)]
  | (k, w) :: t =>
      if k = key then (key, v) :: t else (k, w) :: tableInsert key v t

/-- Outcome of one `Tuner::TuneOrRun` call: the returned result, the parameter
table afterwards, the invocation context afterwards, and whether the
`LOG(WARNING) << "Fallback to default parameter"` warning was emitted. -/
structure CallOut (P R : Type) where
  res : Option R
  table : Table P
  state : KState P
  warned : Bool

/-- Model of `Tuner::TuneOrRun`.  `obf` is the external `MACE_OBFUSCATE_SYMBOL`
transform, `isTuning` the value of the `IsTuning()` flag at call time, and
`paramGenerator` is `none` when the generator is `nullptr`, otherwise the
candidate list it produces.  In the tuning branch the winning `opt_param`
(seeded with `default_param`) is stored under the obfuscated key; otherwise
the kernel runs once with null timer and null output buffer, on the cached
vector on a table hit and on `default_param` (with a warning) on a miss. -/
def TuneOrRun {P R : Type} (obf : String → String) (k : Kernel P R)
    (isTuning : Bool) (paramKey : String) (defaultParam : List P)
    (paramGenerator : Option (List (List P)))
    (table : Table P) (s : KState P) : CallOut P R :=
  let okey := obf paramKey
  match isTuning, paramGenerator with
  | true, some g =>
      let t := Tune k g defaultParam s
      ⟨t.res, tableInsert okey t.optParams table, t.state, false⟩
  | _, _ =>
      match tableFind okey table with
      | some v =>
          ⟨some (k.result s.trace.length v), table,
            ⟨s.trace ++ [⟨v, false, false⟩], s.buf⟩, false⟩
      | none =>
          ⟨some (k.result s.trace.length defaultParam), table,
            ⟨s.trace ++ [⟨defaultParam, false, false⟩], s.buf⟩, true⟩

/-! ### Persistence: `Tuner::WriteRunParameters` and the §6 on-disk layout

Bytes are naturals below 256; multi-byte integers are little-endian (the
host order of the platforms the code targets).  `w` stands for
`sizeof(param_type)`; parameter values are below `2 ^ (8 * w)`. -/

/-- Little-endian encoding of `v` on `w` bytes (the bytes `ofs.write` emits
for a `w`-byte integer object holding `v`). -/
def leBytes : Nat → Nat → List Nat
  | 0, _ => []
  | w + 1, v => v % 256 :: leBytes w (v / 256)

/-- Little-endian decoding of a byte list. -/
def leVal : List Nat → Nat
  | [] => 0
  | b :: bs => b + 256 * leVal bs

/-- The bytes of a `std::string` key (keys are byte strings; characters are
their byte values). -/
def strBytes (s : String) : List Nat := s.data.map Char.toNat

/-- Rebuilding a `std::string` from its bytes. -/
def strOfBytes (bs : List Nat) : String := ⟨bs.map Char.ofNat⟩

/-- The parameter payload `Tuner::WriteRunParameters` actually emits: for each
parameter it writes `sizeof(params_size)` = `sizeof(int32_t)` = 4 bytes
starting at the parameter object — i.e. the low 4 bytes of each value — and
NOT `sizeof(param_type)` bytes (`w ≥ 4` assumed; for `w < 4` the C++ read runs
past the object). -/
def writeParams (ps : List Nat) : List Nat :=
  ps.flatMap (fun v => leBytes 4 (v % 2 ^ 32))

/-- One table entry as serialized by `Tuner::WriteRunParameters`: int32 key
byte length, the key bytes, the int32 declared payload length
`params.size() * sizeof(param_type)`, then the payload actually written. -/
def writeEntry (w : Nat) (key : String) (ps : List Nat) : List Nat :=
  leBytes 4 key.length ++ strBytes key ++ leBytes 4 (ps.length * w) ++
    writeParams ps

/-- The byte stream `Tuner::WriteRunParameters` produces for a table: int64
entry count followed by the entries in table order. -/
def serializeTable (w : Nat) (t : List (String × List Nat)) : List Nat :=
  leBytes 8 t.length ++ t.flatMap (fun kv => writeEntry w kv.1 kv.2)

/-- Splits off the first `n` bytes, failing when fewer are available. -/
def takeBytes (n : Nat) (bs : List Nat) : Option (List Nat × List Nat) :=
  if n ≤ bs.length then some (bs.take n, bs.drop n) else none

/-- Modelled from the spec: decoding `count` raw fixed-width (`w`-byte)
values from a payload, per the §6 payload description. -/
def decodeParamsAux (w : Nat) : Nat → List Nat → List Nat
  | 0, _ => []
  | n + 1, bs => leVal (bs.take w) :: decodeParamsAux w n (bs.drop w)

/-- Modelled from the spec: reading `n` table entries following the §6
layout (int32 key length, key bytes, int32 payload length, payload of
`payload_byte_length` bytes holding `payload_byte_length / w` values). -/
def readEntriesAux (w : Nat) :
    Nat → List Nat → Option (List (String × List Nat))
  | 0, _ => some []
  | n + 1, bs => do
      let (klb, bs) ← takeBytes 4 bs
      let (kb, bs) ← takeBytes (leVal klb) bs
      let (plb, bs) ← takeBytes 4 bs
      let pl := leVal plb
      let (pb, bs) ← takeBytes pl bs
      let rest ← readEntriesAux w n bs
      pure ((strOfBytes kb, decodeParamsAux w (pl / w) pb) :: rest)

/-- Modelled from the spec: the external loader `GetTuningParams` (declared
`extern` in `tuner.h`, its definition is not part of the given source)
deserializes a byte stream according to the §6 layout — int64 entry count then
that many entries — returning failure (`none`) on a malformed stream. -/
def GetTuningParams (w : Nat) (bs : List Nat) :
    Option (List (String × List Nat)) := do
  let (cb, bs) ← takeBytes 8 bs
  readEntriesAux w (leVal cb) bs

/-- Model of `Tuner::WriteRunParameters` at the outermost level: with no
`MACE_RUN_PARAMETER_PATH` configured (`path_ == nullptr`) nothing is written
and nothing is logged; with a path, if the `ofstream` opens the serialized
table is written, otherwise only `LOG(WARNING)` fires.  Returns the bytes
written (if any) and whether a warning was emitted. -/
def WriteRunParameters (w : Nat) (path : Option String) (canOpen : Bool)
    (t : List (String × List Nat)) : Option (List Nat) × Bool :=
  match path with
  | none => (none, false)
  | some _ =>
      if canOpen then (some (serializeTable w t), false) else (none, true)

/-- Model of `Tuner::ReadRunParamters` (sic): the constructor starts from an empty
table and hands it to the external loader; on loader failure it leaves the
table as the loader left it — modelled from the spec: on failure the loader
leaves the (initially empty) table empty — and emits only `LOG(WARNING)`. -/
def ReadRunParamters (loadResult : Option (List (String × List Nat))) :
    List (String × List Nat) × Bool :=
  match loadResult with
  | some t => (t, false)
  | none => ([], true)

/-! ### Helper lemmas -/

theorem leBytes_length (w v : Nat) : (leBytes w v).length = w := by
  induction w generalizing v with
  | zero => rfl
  | succ w ih => simp [leBytes, ih]

theorem leVal_leBytes (w v : Nat) (h : v < 2 ^ (8 * w)) :
    leVal (leBytes w v) = v := by
  induction w generalizing v with
  | zero => simp at h; simp [h, leBytes, leVal]
  | succ w ih =>
      have hd : v / 256 < 2 ^ (8 * w) := by
        rw [Nat.div_lt_iff_lt_mul (by norm_num : 0 < 256)]
        calc v < 2 ^ (8 * (w + 1)) := h
        _ = 2 ^ (8 * w) * 256 := by ring
      simp [leBytes, leVal, ih _ hd]
      omega

theorem writeParams_length (ps : List Nat) :
    (writeParams ps).length = ps.length * 4 := by
  induction ps with
  | nil => rfl
  | cons v ps ih =>
      simp [writeParams, List.flatMap_cons, leBytes_length] at ih ⊢
      omega

theorem takeBytes_exact (xs ys : List Nat) :
    takeBytes xs.length (xs ++ ys) = some (xs, ys) := by
  simp [takeBytes, List.take_left, List.drop_left]

theorem decodeParamsAux_writeParams (ps : List Nat)
    (h : ∀ v ∈ ps, v < 2 ^ 32) :
    decodeParamsAux 4 ps.length (writeParams ps) = ps := by
  induction ps with
  | nil => rfl
  | cons v ps ih =>
      have hv : v < 2 ^ 32 := h v (by simp)
      have hmod : v % 2 ^ 32 = v := Nat.mod_eq_of_lt hv
      have h4 : (leBytes 4 (v % 2 ^ 32)).length = 4 := leBytes_length 4 _
      have htake : (leBytes 4 (v % 2 ^ 32) ++ writeParams ps).take 4 =
          leBytes 4 (v % 2 ^ 32) := by
        rw [← h4]; exact List.take_left _ _
      have hdrop : (leBytes 4 (v % 2 ^ 32) ++ writeParams ps).drop 4 =
          writeParams ps := by
        rw [← h4]; exact List.drop_left _ _
      simp only [writeParams, List.flatMap_cons, List.length_cons,
        decodeParamsAux]
      rw [show (ps.flatMap fun x => leBytes 4 (x % 2 ^ 32)) = writeParams ps
          from rfl, htake, hdrop, hmod,
        leVal_leBytes 4 v (by norm_num at hv ⊢; omega)]
      exact congrArg (v :: ·) (ih fun x hx => h x (by simp [hx]))

theorem strOfBytes_strBytes (s : String) : strOfBytes (strBytes s) = s := by
  apply String.ext
  simp only [strOfBytes, strBytes, List.map_map]
  simp [Function.comp_def, Char.ofNat_toNat]

theorem strBytes_length (s : String) : (strBytes s).length = s.length := by
  simp only [strBytes, List.length_map]
  rfl

/-- A fixed-length field followed by the rest of the stream splits back off. -/
theorem takeBytes_leBytes (w v : Nat) (rest : List Nat) :
    takeBytes w (leBytes w v ++ rest) = some (leBytes w v, rest) := by
  rw [show takeBytes w = takeBytes (leBytes w v).length from by
    rw [leBytes_length]]
  exact takeBytes_exact _ _

/-- Well-formedness the C++ types guarantee for a table of `unsigned int`
parameters: sizes fit `int32` / `int64` and values fit 32 bits. -/
def WFTable (t : List (String × List Nat)) : Prop :=
  t.length < 2 ^ 64 ∧
    ∀ kv ∈ t, kv.1.length < 2 ^ 32 ∧ kv.2.length * 4 < 2 ^ 32 ∧
      ∀ v ∈ kv.2, v < 2 ^ 32

instance : DecidablePred WFTable := fun t => by
  unfold WFTable; infer_instance

theorem readEntriesAux_flatMap_writeEntry (t : List (String × List Nat))
    (rest : List Nat)
    (h : ∀ kv ∈ t, kv.1.length < 2 ^ 32 ∧ kv.2.length * 4 < 2 ^ 32 ∧
      ∀ v ∈ kv.2, v < 2 ^ 32) :
    readEntriesAux 4 t.length
      ((t.flatMap fun kv => writeEntry 4 kv.1 kv.2) ++ rest) = some t := by
  induction t generalizing rest with
  | nil => rfl
  | cons kv t ih =>
      obtain ⟨hk, hpl, hv⟩ := h kv (by simp)
      obtain ⟨key, ps⟩ := kv
      have hbytes :
          ((((key, ps) :: t).flatMap fun kv => writeEntry 4 kv.1 kv.2) ++ rest)
            = leBytes 4 key.length ++ (strBytes key ++
                (leBytes 4 (ps.length * 4) ++ (writeParams ps ++
                  ((t.flatMap fun kv => writeEntry 4 kv.1 kv.2) ++ rest)))) :=
        by simp [List.flatMap_cons, writeEntry, List.append_assoc]
      have hkey : takeBytes key.length (strBytes key ++
            (leBytes 4 (ps.length * 4) ++ (writeParams ps ++
              ((t.flatMap fun kv => writeEntry 4 kv.1 kv.2) ++ rest)))) =
          some (strBytes key, leBytes 4 (ps.length * 4) ++ (writeParams ps ++
            ((t.flatMap fun kv => writeEntry 4 kv.1 kv.2) ++ rest))) := by
        rw [← strBytes_length]; exact takeBytes_exact _ _
      have hpay : takeBytes (ps.length * 4) (writeParams ps ++
            ((t.flatMap fun kv => writeEntry 4 kv.1 kv.2) ++ rest)) =
          some (writeParams ps,
            (t.flatMap fun kv => writeEntry 4 kv.1 kv.2) ++ rest) := by
        rw [← writeParams_length]; exact takeBytes_exact _ _
      rw [List.length_cons, hbytes]
      simp only [readEntriesAux, Option.bind_eq_bind]
      rw [takeBytes_leBytes]
      simp only [Option.some_bind]
      rw [leVal_leBytes 4 key.length (by norm_num at hk ⊢; omega), hkey]
      simp only [Option.some_bind]
      rw [takeBytes_leBytes]
      simp only [Option.some_bind]
      rw [leVal_leBytes 4 (ps.length * 4) (by norm_num at hpl ⊢; omega), hpay]
      simp only [Option.some_bind]
      rw [ih rest fun kv hkv => h kv (by simp [hkv])]
      simp only [Option.some_bind]
      rw [Nat.mul_div_cancel _ (by norm_num : (0:Nat) < 4),
        decodeParamsAux_writeParams ps (by simpa using hv),
        strOfBytes_strBytes]
      rfl

theorem tableFind_tableInsert {P : Type} (key : String) (v : List P)
    (t : Table P) : tableFind key (tableInsert key v t) = some v := by
  induction t with
  | nil => simp [tableInsert, tableFind]
  | cons kv t ih =>
      by_cases h : kv.1 = key <;>
        simp [tableInsert, tableFind, h, ih]

/-! ### Claims -/

/-- Claim C4: the spec requires the serialized payload of an entry with `n`
parameters of type `T` to be exactly `n * sizeof(T)` bytes of raw `T` values,
matching the declared `int32` payload length `n * sizeof(T)`.  The code
instead writes `sizeof(params_size)` = `sizeof(int32_t)` = 4 bytes per
parameter: for `param_type = uint64_t` (`w = 8`) the entry `("k", [5])` gets a
4-byte payload under a declared length of 8, and a §6-conformant reader
rejects the stream. -/
theorem writeRunParameters_payload_width_bug :
    (writeParams [5]).length = 4 ∧
      (writeParams [5]).length ≠ [5].length * 8 ∧
      GetTuningParams 8 (serializeTable 8 [("k", [5])]) = none := by
  decide

/-- Claim C5: serializing a well-formed table with
`Tuner::WriteRunParameters` (at `sizeof(param_type) = 4`, the width of the
only instantiable parameter type `unsigned int`) and deserializing the bytes
per the §6 layout reproduces the table exactly — in particular the same keys,
the same vector contents per key, and (being determined by the vectors) the
same payload byte lengths. -/
theorem writeRead_roundTrip (t : List (String × List Nat)) (h : WFTable t) :
    GetTuningParams 4 (serializeTable 4 t) = some t := by
  obtain ⟨hcount, hentries⟩ := h
  unfold GetTuningParams serializeTable
  rw [takeBytes_leBytes]
  simp only [Option.bind_eq_bind, Option.some_bind]
  rw [leVal_leBytes 8 t.length (by norm_num at hcount ⊢; omega)]
  rw [← List.append_nil (t.flatMap fun kv => writeEntry 4 kv.1 kv.2)]
  exact readEntriesAux_flatMap_writeEntry t [] hentries

/-- Witness for C5 at the spec's concrete table. -/
theorem writeRead_roundTrip_witness :
    GetTuningParams 4
        (serializeTable 4 [("convK3", [8, 8, 1]), ("gemmTile", [4, 16])]) =
      some [("convK3", [8, 8, 1]), ("gemmTile", [4, 16])] :=
  writeRead_roundTrip [("convK3", [8, 8, 1]), ("gemmTile", [4, 16])]
    (by decide)

/-- Claim C6: with an empty candidate list `Tuner::Tune` leaves `opt_time`
at its `std::numeric_limits<double>::max()` (spec: +infinity) initialisation
and leaves `*opt_params` at the caller-supplied default. -/
theorem tune_empty_candidates {P R : Type} (k : Kernel P R) (d : List P)
    (s : KState P) :
    (Tune k [] d s).optTime = none ∧ (Tune k [] d s).optParams = d :=
  ⟨rfl, rfl⟩

/-- Claim C8: persistence never aborts: with no configured path the save
writes nothing and warns nothing; with a path that cannot be opened it only
warns; a failed load leaves the table empty and only warns — in every case a
plain value is returned, no error escapes. -/
theorem persistence_never_fatal (w : Nat) (path : String) (canOpen : Bool)
    (t : List (String × List Nat)) :
    WriteRunParameters w none canOpen t = (none, false) ∧
      WriteRunParameters w (some path) false t = (none, true) ∧
      ReadRunParamters none = ([], true) :=
  ⟨rfl, rfl, rfl⟩

/-- Claim C9: in tuning mode with a generator that yields no candidates,
`TuneOrRun` still stores the caller's default vector under the obfuscated
key, overwriting whatever the table previously held for that key. -/
theorem tuneOrRun_empty_generator_stores_default {P R : Type}
    (obf : String → String) (k : Kernel P R) (key : String) (d : List P)
    (table : Table P) (s : KState P) :
    (TuneOrRun obf k true key d (some []) table s).table =
        tableInsert (obf key) d table ∧
      tableFind (obf key) (TuneOrRun obf k true key d (some []) table s).table
        = some d :=
  ⟨rfl, by
    show tableFind (obf key) (tableInsert (obf key) d table) = some d
    exact tableFind_tableInsert _ _ _⟩

/-- In replay mode (tuning flag off, or generator null) `TuneOrRun` takes the
`else` branch: one untimed, unbuffered kernel invocation on the cached vector
(table hit) or on the default (miss, with a warning); the table is returned
untouched. -/
theorem tuneOrRun_replay {P R : Type} (obf : String → String)
    (k : Kernel P R) (isT : Bool) (key : String) (d : List P)
    (gen : Option (List (List P))) (table : Table P) (s : KState P)
    (hmode : isT = false ∨ gen = none) :
    TuneOrRun obf k isT key d gen table s =
      match tableFind (obf key) table with
      | some v => ⟨some (k.result s.trace.length v), table,
          ⟨s.trace ++ [⟨v, false, false⟩], s.buf⟩, false⟩
      | none => ⟨some (k.result s.trace.length d), table,
          ⟨s.trace ++ [⟨d, false, false⟩], s.buf⟩, true⟩ := by
  rcases hmode with h | h
  · subst h; cases gen <;> rfl
  · subst h; cases isT <;> rfl

/-- Claim C1: the `TuneOrRun` state machine.  With the tuning flag on and a
generator present, the selection policy `Tune` runs, its winning vector is
stored under the obfuscated key and its result is returned; otherwise on a
table hit the kernel runs exactly once on the cached vector with null timer
and null output buffer; otherwise it runs exactly once on the default vector
and the fallback warning is emitted.  In both replay cases the table is
unchanged. -/
theorem tuneOrRun_cases {P R : Type} (obf : String → String)
    (k : Kernel P R) (isT : Bool) (key : String) (d : List P)
    (gen : Option (List (List P))) (table : Table P) (s : KState P) :
    (∀ g, isT = true → gen = some g →
      TuneOrRun obf k isT key d gen table s =
        ⟨(Tune k g d s).res,
          tableInsert (obf key) (Tune k g d s).optParams table,
          (Tune k g d s).state, false⟩) ∧
    (∀ v, (isT = false ∨ gen = none) →
      tableFind (obf key) table = some v →
      TuneOrRun obf k isT key d gen table s =
        ⟨some (k.result s.trace.length v), table,
          ⟨s.trace ++ [⟨v, false, false⟩], s.buf⟩, false⟩) ∧
    ((isT = false ∨ gen = none) → tableFind (obf key) table = none →
      TuneOrRun obf k isT key d gen table s =
        ⟨some (k.result s.trace.length d), table,
          ⟨s.trace ++ [⟨d, false, false⟩], s.buf⟩, true⟩) := by
  refine ⟨?_, ?_, ?_⟩
  · rintro g rfl rfl; rfl
  · intro v hmode hfind
    rw [tuneOrRun_replay obf k isT key d gen table s hmode, hfind]
  · intro hmode hfind
    rw [tuneOrRun_replay obf k isT key d gen table s hmode, hfind]

/-- Claim C7: a replay-mode call (tuning flag off, or no generator) leaves
the parameter table unchanged, and consequently two consecutive replay calls
that hit the same key pass the kernel the identical cached vector both
times. -/
theorem replay_preserves_table {P R : Type} (obf : String → String)
    (k : Kernel P R) (isT : Bool) (key : String) (d : List P)
    (gen : Option (List (List P))) (table : Table P) (s : KState P)
    (hmode : isT = false ∨ gen = none) :
    (TuneOrRun obf k isT key d gen table s).table = table ∧
    ∀ v, tableFind (obf key) table = some v →
      (TuneOrRun obf k isT key d gen table s).state.trace =
          s.trace ++ [⟨v, false, false⟩] ∧
      (TuneOrRun obf k isT key d gen
          (TuneOrRun obf k isT key d gen table s).table
          (TuneOrRun obf k isT key d gen table s).state).state.trace =
        s.trace ++ [⟨v, false, false⟩, ⟨v, false, false⟩] := by
  rw [tuneOrRun_replay obf k isT key d gen table s hmode]
  cases hfind : tableFind (obf key) table with
  | none =>
      exact ⟨rfl, fun v hv => absurd hv (by simp)⟩
  | some w =>
      refine ⟨rfl, fun v hv => ?_⟩
      have hw : w = v := Option.some.inj hv
      subst hw
      constructor
      · rfl
      · rw [tuneOrRun_replay obf k isT key d gen table _ hmode, hfind]
        simp

/-- The buffer content after `n` kernel invocations starting at invocation
index `i0`: each invocation applies its `writeBuf` transformation. -/
def bufIter {P R : Type} (k : Kernel P R) : Nat → Nat → List P → List P
  | _, 0, b => b
  | i0, n + 1, b => bufIter k (i0 + 1) n (k.writeBuf i0 b)

/-- Closed form of `runLoop` for at least one repetition: the result is the
last invocation's, the accumulated time is the sum of the per-repetition
timer readings, the trace grows by one timed, buffered call per repetition,
and the buffer is transformed once per invocation. -/
theorem runLoop_succ_spec {P R : Type} (k : Kernel P R) (p : List P)
    (n : Nat) (s : KState P) (tot : Int) (r : Option R) :
    runLoop k p (n + 1) s tot r =
      (some (k.result (s.trace.length + n) p),
        tot + ∑ j in Finset.range (n + 1), k.time (s.trace.length + j),
        ⟨s.trace ++ List.replicate (n + 1) ⟨p, true, true⟩,
          bufIter k s.trace.length (n + 1) s.buf⟩) := by
  induction n generalizing s tot r with
  | zero =>
      simp [runLoop, bufIter, List.replicate]
  | succ n ih =>
      rw [show n + 1 + 1 = (n + 1) + 1 from rfl, runLoop, ih]
      simp only [List.length_append, List.length_cons, List.length_nil,
        Nat.add_zero]
      have h1 : s.trace.length + 1 + n = s.trace.length + (n + 1) := by omega
      have h2 : ∀ j, s.trace.length + 1 + j = s.trace.length + (j + 1) := by
        omega
      refine Prod.ext ?_ (Prod.ext ?_ ?_)
      · simp only [h1]
      · simp only [h2]
        rw [Finset.sum_range_succ' (fun j => k.time (s.trace.length + j))]
        simp only [Nat.add_zero]
        ring
      · simp only [KState.mk.injEq]
        constructor
        · rw [List.append_assoc]
          rfl
        · rfl

/-- Closed form of `Tuner::Run` for at least one repetition. -/
theorem Run_succ_spec {P R : Type} (k : Kernel P R) (p : List P) (n : Nat)
    (s : KState P) :
    Run k p (n + 1) s =
      (some (k.result (s.trace.length + n) p),
        ((∑ j in Finset.range (n + 1),
            k.time (s.trace.length + j) : ℤ) : ℚ) / ((n : ℚ) + 1),
        ⟨s.trace ++ List.replicate (n + 1) ⟨p, true, true⟩,
          bufIter k s.trace.length (n + 1) s.buf⟩) := by
  unfold Run
  rw [runLoop_succ_spec]
  simp only [zero_add]
  push_cast
  ring_nf

/-- Claim C3: one candidate of a tuning session invokes the kernel exactly
12 times — all with the candidate vector, a live timer and the shared output
buffer — the mean time `Tuner::Tune` compares is the arithmetic mean of the
timer readings of only the 10 measured repetitions (invocation indices
`+2 … +11`; the 2 warm-up readings at `+0`, `+1` are discarded), and the
candidate's result is the one returned by the last measured repetition. -/
theorem runCandidate_twelve_invocations {P R : Type} (k : Kernel P R)
    (p : List P) (s : KState P) :
    (runCandidate k p s).2.2.trace =
        s.trace ++ List.replicate 12 ⟨p, true, true⟩ ∧
      (runCandidate k p s).2.2.trace.length = s.trace.length + 12 ∧
      (runCandidate k p s).2.1 =
        ((∑ j in Finset.range 10,
            k.time (s.trace.length + 2 + j) : ℤ) : ℚ) / 10 ∧
      (runCandidate k p s).1 = some (k.result (s.trace.length + 11) p) := by
  unfold runCandidate
  rw [show (2 : Nat) = 1 + 1 from rfl, Run_succ_spec]
  simp only
  rw [show (10 : Nat) = 9 + 1 from rfl, Run_succ_spec]
  simp only [List.length_append, List.length_replicate]
  refine ⟨?_, ?_, ?_, ?_⟩
  · rw [List.append_assoc, ← List.replicate_add]
  · simp [List.append_assoc, ← List.replicate_add]
  · norm_num
  · norm_num

theorem tlt_some_iff {t m : ℚ} : tlt t (some m) = true ↔ t < m := by
  simp [tlt]

theorem tlt_trans {u t : ℚ} {b : Option ℚ} (h1 : tlt u (some t) = true)
    (h2 : tlt t b = true) : tlt u b = true := by
  cases b with
  | none => rfl
  | some m =>
      exact tlt_some_iff.mpr
        (lt_trans (tlt_some_iff.mp h1) (tlt_some_iff.mp h2))

theorem lt_of_tlt_false {u t : ℚ} {b : Option ℚ} (h1 : tlt u b = true)
    (h2 : tlt t b = false) : u < t := by
  cases b with
  | none => simp [tlt] at h2
  | some m =>
      have hu : u < m := tlt_some_iff.mp h1
      have ht : ¬ t < m := by simpa [tlt] using h2
      exact lt_of_lt_of_le hu (not_lt.mp ht)

/-- What the tuning loop observes for each candidate: the measured mean time,
the measured-phase result, the output-buffer content right after the
candidate's measured phase, and the kernel context after the candidate. -/
structure COut (P R : Type) where
  mean : ℚ
  res : Option R
  buf : List P
  st : KState P

/-- The per-candidate observations of a tuning session, in generator order,
threading the kernel context (invocation indices and the shared buffer)
through the session. -/
def candOutcomes {P R : Type} (k : Kernel P R) :
    List (List P) → KState P → List (COut P R)
  | [], _ => []
  | p :: ps, s =>
      let step := runCandidate k p s
      ⟨step.2.1, step.1, step.2.2.buf, step.2.2⟩ ::
        candOutcomes k ps step.2.2

/-- The pure selection recurrence of `Tuner::Tune`, detached from the
measurement: replace the running best exactly when the new mean time is
strictly below it. -/
def selFold {D : Type} : List (ℚ × D) → Option ℚ × D → Option ℚ × D
  | [], b => b
  | (t, d) :: l, b =>
      if tlt t b.1 then selFold l (some t, d) else selFold l b

theorem selFold_stable {D : Type} (l : List (ℚ × D)) (b : Option ℚ × D)
    (h : ∀ x ∈ l, tlt x.1 b.1 = false) : selFold l b = b := by
  induction l with
  | nil => rfl
  | cons x l ih =>
      obtain ⟨t, d⟩ := x
      have ht : tlt t b.1 = false := h (t, d) (by simp)
      simp only [selFold, ht, Bool.false_eq_true, if_false]
      exact ih fun y hy => h y (by simp [hy])

/-- First-found-minimum characterisation of `selFold`: as soon as some
element strictly beats the initial best, the fold ends at the earliest
element whose time is minimal — no element is strictly below it, and every
element strictly before it is strictly above it. -/
theorem selFold_improves {D : Type} (l : List (ℚ × D)) :
    ∀ b : Option ℚ × D, (∃ x ∈ l, tlt x.1 b.1 = true) →
      ∃ j, ∃ hj : j < l.length,
        tlt (l.get ⟨j, hj⟩).1 b.1 = true ∧
        (∀ i, ∀ hi : i < l.length,
          ¬ (l.get ⟨i, hi⟩).1 < (l.get ⟨j, hj⟩).1) ∧
        (∀ i, ∀ hi : i < l.length, i < j →
          (l.get ⟨j, hj⟩).1 < (l.get ⟨i, hi⟩).1) ∧
        selFold l b = (some (l.get ⟨j, hj⟩).1, (l.get ⟨j, hj⟩).2) := by
  induction l with
  | nil => intro b h; simp at h
  | cons x l ih =>
      intro b himp
      obtain ⟨t, d⟩ := x
      cases hb : tlt t b.1 with
      | true =>
          by_cases himp2 : ∃ y ∈ l, tlt y.1 (some t) = true
          · obtain ⟨j, hj, hjB, hjmin, hjfirst, hsel⟩ := ih (some t, d) himp2
            refine ⟨j + 1, Nat.succ_lt_succ hj, tlt_trans hjB hb,
              ?_, ?_, ?_⟩
            · intro i hi
              match i, hi with
              | 0, _ =>
                  exact fun hlt =>
                    absurd (tlt_some_iff.mp hjB) (lt_asymm hlt)
              | i + 1, hi =>
                  exact hjmin i (Nat.lt_of_succ_lt_succ hi)
            · intro i hi hij
              match i, hi with
              | 0, _ => exact tlt_some_iff.mp hjB
              | i + 1, hi =>
                  exact hjfirst i (Nat.lt_of_succ_lt_succ hi)
                    (Nat.lt_of_succ_lt_succ hij)
            · simp only [selFold, hb, if_true]
              exact hsel
          · have hstable : ∀ y ∈ l, tlt y.1 (some t) = false := by
              intro y hy
              rcases hy2 : tlt y.1 (some t) with _ | _
              · rfl
              · exact absurd ⟨y, hy, hy2⟩ himp2
            refine ⟨0, Nat.succ_pos _, hb, ?_, ?_, ?_⟩
            · intro i hi
              match i, hi with
              | 0, _ => exact lt_irrefl t
              | i + 1, hi =>
                  have h0 := hstable _
                    (List.get_mem l i (Nat.lt_of_succ_lt_succ hi))
                  intro hlt
                  have h1 : tlt (l.get ⟨i, Nat.lt_of_succ_lt_succ hi⟩).1
                      (some t) = true := tlt_some_iff.mpr hlt
                  rw [h0] at h1
                  exact absurd h1 (by simp)
            · intro i hi hij
              exact absurd hij (Nat.not_lt_zero i)
            · simp only [selFold, hb, if_true]
              exact selFold_stable l (some t, d) hstable
      | false =>
          have himp2 : ∃ y ∈ l, tlt y.1 b.1 = true := by
            obtain ⟨y, hy, hyt⟩ := himp
            rcases List.mem_cons.mp hy with h | h
            · rw [h] at hyt
              rw [hyt] at hb
              exact absurd hb (by simp)
            · exact ⟨y, h, hyt⟩
          obtain ⟨j, hj, hjB, hjmin, hjfirst, hsel⟩ := ih b himp2
          refine ⟨j + 1, Nat.succ_lt_succ hj, hjB, ?_, ?_, ?_⟩
          · intro i hi
            match i, hi with
            | 0, _ => exact lt_asymm (lt_of_tlt_false hjB hb)
            | i + 1, hi => exact hjmin i (Nat.lt_of_succ_lt_succ hi)
          · intro i hi hij
            match i, hi with
            | 0, _ => exact lt_of_tlt_false hjB hb
            | i + 1, hi =>
                exact hjfirst i (Nat.lt_of_succ_lt_succ hi)
                  (Nat.lt_of_succ_lt_succ hij)
          · simp only [selFold, hb, Bool.false_eq_true, if_false]
            exact hsel

theorem candOutcomes_length {P R : Type} (k : Kernel P R)
    (ps : List (List P)) (s : KState P) :
    (candOutcomes k ps s).length = ps.length := by
  induction ps generalizing s with
  | nil => rfl
  | cons p ps ih => simp [candOutcomes, ih]

/-- The tuning loop is the selection recurrence applied to the per-candidate
observations: measurement (context threading) and selection commute. -/
theorem tuneFold_selFold {P R : Type} (k : Kernel P R) (ps : List (List P))
    (acc : TuneAcc P R) :
    ((tuneFold k ps acc).optTime, (tuneFold k ps acc).res,
        (tuneFold k ps acc).optParams) =
      selFold
        ((candOutcomes k ps acc.st).map fun o => (o.mean, o.res, o.buf))
        (acc.optTime, acc.res, acc.optParams) := by
  induction ps generalizing acc with
  | nil => rfl
  | cons p ps ih =>
      cases hb : tlt (runCandidate k p acc.st).2.1 acc.optTime with
      | false =>
          simp only [tuneFold, candOutcomes, List.map_cons, selFold, hb,
            Bool.false_eq_true, if_false]
          exact ih ⟨acc.optTime, acc.res, acc.optParams,
            (runCandidate k p acc.st).2.2⟩
      | true =>
          simp only [tuneFold, candOutcomes, List.map_cons, selFold, hb,
            if_true]
          exact ih ⟨some (runCandidate k p acc.st).2.1,
            (runCandidate k p acc.st).1,
            (runCandidate k p acc.st).2.2.buf, (runCandidate k p acc.st).2.2⟩

/-- Claim C2: on a non-empty candidate list, `Tuner::Tune` returns the result
and the parameter vector (the runner's output-buffer content) of a candidate
whose measured mean time is minimal over the session, and every candidate
strictly earlier in generator order has a strictly greater mean — i.e. among
equal minima the earliest wins, since replacement requires strictly smaller
time. -/
theorem tune_selects_first_minimum {P R : Type} (k : Kernel P R)
    (g : List (List P)) (d : List P) (s : KState P) (hne : g ≠ []) :
    ∃ j, ∃ hj : j < (candOutcomes k g ⟨s.trace, []⟩).length,
      (∀ i, ∀ hi : i < (candOutcomes k g ⟨s.trace, []⟩).length,
        ((candOutcomes k g ⟨s.trace, []⟩).get ⟨j, hj⟩).mean ≤
          ((candOutcomes k g ⟨s.trace, []⟩).get ⟨i, hi⟩).mean) ∧
      (∀ i, ∀ hi : i < (candOutcomes k g ⟨s.trace, []⟩).length, i < j →
        ((candOutcomes k g ⟨s.trace, []⟩).get ⟨j, hj⟩).mean <
          ((candOutcomes k g ⟨s.trace, []⟩).get ⟨i, hi⟩).mean) ∧
      (Tune k g d s).res = ((candOutcomes k g ⟨s.trace, []⟩).get ⟨j, hj⟩).res ∧
      (Tune k g d s).optParams =
        ((candOutcomes k g ⟨s.trace, []⟩).get ⟨j, hj⟩).buf := by
  set outs := candOutcomes k g (⟨s.trace, []⟩ : KState P) with houts
  set lm := outs.map fun o => (o.mean, o.res, o.buf) with hlm
  have hlen : lm.length = outs.length := List.length_map _ _
  have houtslen : outs.length = g.length := candOutcomes_length k g _
  have hnil : outs ≠ [] := by
    intro h
    apply hne
    rw [h] at houtslen
    exact List.length_eq_zero.mp houtslen.symm
  have himp : ∃ x ∈ lm, tlt x.1 (none, (none : Option R), d).1 = true := by
    obtain ⟨o, rest, ho⟩ := List.exists_cons_of_ne_nil hnil
    refine ⟨(o.mean, o.res, o.buf), ?_, rfl⟩
    rw [hlm, ho]
    simp
  obtain ⟨j, hj, hjB, hjmin, hjfirst, hsel⟩ := selFold_improves lm _ himp
  have hget : ∀ i, ∀ hi : i < lm.length,
      lm.get ⟨i, hi⟩ =
        ((outs.get ⟨i, hlen ▸ hi⟩).mean, (outs.get ⟨i, hlen ▸ hi⟩).res,
          (outs.get ⟨i, hlen ▸ hi⟩).buf) := by
    intro i hi
    exact List.get_map _
  have htriple := tuneFold_selFold k g ⟨none, none, d, ⟨s.trace, []⟩⟩
  rw [← houts, ← hlm] at htriple
  rw [hsel] at htriple
  refine ⟨j, hlen ▸ hj, ?_, ?_, ?_, ?_⟩
  · intro i hi
    have := hjmin i (hlen ▸ hi)
    rw [hget i (hlen ▸ hi), hget j hj] at this
    exact not_lt.mp this
  · intro i hi hij
    have := hjfirst i (hlen ▸ hi) hij
    rw [hget i (hlen ▸ hi), hget j hj] at this
    exact this
  · have h2 := congrArg (fun x => x.2.1) htriple
    simp only at h2
    rw [hget j hj] at h2
    exact h2
  · have h3 := congrArg (fun x => x.2.2) htriple
    simp only at h3
    rw [hget j hj] at h3
    exact h3

/-- A concrete kernel used to instantiate theorems with hypotheses: the
result encodes the head parameter and the invocation index, timer readings
grow with the index, and the output buffer is never written. -/
def demoKernel : Kernel Nat Nat :=
  ⟨fun i p => p.headD 0 * 100 + i, fun i => 10 * ((i : Int) + 1),
    fun _ b => b⟩

/-- Witness for C2 at the candidates `[[2], [3]]`. -/
theorem tune_selects_first_minimum_witness :
    ∃ j, ∃ hj : j < (candOutcomes demoKernel [[2], [3]]
        (⟨[], []⟩ : KState Nat)).length,
      (∀ i, ∀ hi : i < (candOutcomes demoKernel [[2], [3]]
          (⟨[], []⟩ : KState Nat)).length,
        ((candOutcomes demoKernel [[2], [3]]
            (⟨[], []⟩ : KState Nat)).get ⟨j, hj⟩).mean ≤
          ((candOutcomes demoKernel [[2], [3]]
            (⟨[], []⟩ : KState Nat)).get ⟨i, hi⟩).mean) ∧
      (∀ i, ∀ hi : i < (candOutcomes demoKernel [[2], [3]]
          (⟨[], []⟩ : KState Nat)).length, i < j →
        ((candOutcomes demoKernel [[2], [3]]
            (⟨[], []⟩ : KState Nat)).get ⟨j, hj⟩).mean <
          ((candOutcomes demoKernel [[2], [3]]
            (⟨[], []⟩ : KState Nat)).get ⟨i, hi⟩).mean) ∧
      (Tune demoKernel [[2], [3]] [7] ⟨[], []⟩).res =
        ((candOutcomes demoKernel [[2], [3]]
          (⟨[], []⟩ : KState Nat)).get ⟨j, hj⟩).res ∧
      (Tune demoKernel [[2], [3]] [7] ⟨[], []⟩).optParams =
        ((candOutcomes demoKernel [[2], [3]]
          (⟨[], []⟩ : KState Nat)).get ⟨j, hj⟩).buf :=
  tune_selects_first_minimum demoKernel [[2], [3]] [7] ⟨[], []⟩ (by simp)

theorem bufIter_id {P R : Type} (k : Kernel P R)
    (hbuf : ∀ i b, k.writeBuf i b = b) :
    ∀ (n i0 : Nat) (b : List P), bufIter k i0 n b = b := by
  intro n
  induction n with
  | zero => intro i0 b; rfl
  | succ n ih => intro i0 b; rw [bufIter, hbuf, ih]

theorem runLoop_buf_id {P R : Type} (k : Kernel P R)
    (hbuf : ∀ i b, k.writeBuf i b = b) (p : List P) :
    ∀ (n : Nat) (s : KState P) (tot : Int) (r : Option R),
      (runLoop k p n s tot r).2.2.buf = s.buf := by
  intro n
  induction n with
  | zero => intro s tot r; rfl
  | succ n ih =>
      intro s tot r
      simp only [runLoop]
      rw [ih]
      exact hbuf _ _

/-- The context component of `Tuner::Run` is that of its loop. -/
theorem Run_state {P R : Type} (k : Kernel P R) (p : List P) (n : Nat)
    (s : KState P) : (Run k p n s).2.2 = (runLoop k p n s 0 none).2.2 := by
  unfold Run
  rcases runLoop k p n s 0 none with ⟨a, b, c⟩
  rfl

theorem Run_buf_id {P R : Type} (k : Kernel P R)
    (hbuf : ∀ i b, k.writeBuf i b = b) (p : List P) (n : Nat)
    (s : KState P) : (Run k p n s).2.2.buf = s.buf := by
  rw [Run_state]
  exact runLoop_buf_id k hbuf p n s 0 none

/-- If the kernel never writes to the output buffer, a candidate's warm-up
and measured runs leave the buffer unchanged. -/
theorem runCandidate_buf_id {P R : Type} (k : Kernel P R)
    (hbuf : ∀ i b, k.writeBuf i b = b) (p : List P) (s : KState P) :
    (runCandidate k p s).2.2.buf = s.buf :=
  (Run_buf_id k hbuf p 10 _).trans (Run_buf_id k hbuf p 2 s)

theorem tuneFold_optParams_nil {P R : Type} (k : Kernel P R)
    (hbuf : ∀ i b, k.writeBuf i b = b) :
    ∀ (ps : List (List P)) (acc : TuneAcc P R), acc.st.buf = [] →
      acc.optParams = [] → (tuneFold k ps acc).optParams = [] := by
  intro ps
  induction ps with
  | nil => intro acc _ h2; exact h2
  | cons p ps ih =>
      intro acc h1 h2
      have hstep : (runCandidate k p acc.st).2.2.buf = [] := by
        rw [runCandidate_buf_id k hbuf]; exact h1
      simp only [tuneFold]
      by_cases hb : tlt (runCandidate k p acc.st).2.1 acc.optTime = true
      · rw [if_pos hb]
        exact ih _ hstep hstep
      · rw [if_neg hb]
        exact ih _ hstep h2

/-- Claim C10: the vector a tuning session adopts is the shared output
buffer's content, never the probed candidate: when the kernel never writes
the buffer, a session over a non-empty candidate list stores the empty
vector under the obfuscated key — not the winning candidate and not the
caller's default. -/
theorem tune_stores_output_buffer {P R : Type} (obf : String → String)
    (k : Kernel P R) (key : String) (d : List P) (g : List (List P))
    (table : Table P) (s : KState P)
    (hbuf : ∀ i b, k.writeBuf i b = b) (hg : g ≠ []) :
    (Tune k g d s).optParams = ([] : List P) ∧
      tableFind (obf key)
          (TuneOrRun obf k true key d (some g) table s).table =
        some ([] : List P) := by
  have h1 : (Tune k g d s).optParams = ([] : List P) := by
    cases g with
    | nil => exact absurd rfl hg
    | cons p ps =>
        show (tuneFold k (p :: ps)
          ⟨none, none, d, ⟨s.trace, []⟩⟩).optParams = []
        have hbufstep :
            (runCandidate k p (⟨s.trace, []⟩ : KState P)).2.2.buf = [] :=
          runCandidate_buf_id k hbuf p _
        simp only [tuneFold, tlt, if_true]
        exact tuneFold_optParams_nil k hbuf ps _ hbufstep hbufstep
  refine ⟨h1, ?_⟩
  show tableFind (obf key)
      (tableInsert (obf key) (Tune k g d s).optParams table) = some []
  rw [h1]
  exact tableFind_tableInsert _ _ _

/-- Witness for C10: tuning `"convK3"` over `[[2], [3]]` with a kernel that
never writes the buffer replaces the cached `[9]` by the empty vector —
neither a candidate nor the default `[7]`. -/
theorem tune_stores_output_buffer_witness :
    (Tune demoKernel [[2], [3]] [7] ⟨[], []⟩).optParams = ([] : List Nat) ∧
      tableFind "convK3"
          (TuneOrRun id demoKernel true "convK3" [7] (some [[2], [3]])
            [("convK3", [9])] ⟨[], []⟩).table =
        some ([] : List Nat) :=
  tune_stores_output_buffer id demoKernel "convK3" [7] [[2], [3]]
    [("convK3", [9])] ⟨[], []⟩ (fun _ _ => rfl) (by simp)

/-- Witness for C1: the three branches at concrete inputs. -/
theorem tuneOrRun_cases_witness :
    (TuneOrRun id demoKernel true "convK3" [7] (some [[2]])
        [] ⟨[], []⟩ =
      ⟨(Tune demoKernel [[2]] [7] ⟨[], []⟩).res,
        tableInsert "convK3"
          (Tune demoKernel [[2]] [7] ⟨[], []⟩).optParams [],
        (Tune demoKernel [[2]] [7] ⟨[], []⟩).state, false⟩) ∧
    (TuneOrRun id demoKernel false "convK3" [7] none
        [("convK3", [8, 8, 1])] ⟨[], []⟩ =
      ⟨some (demoKernel.result 0 [8, 8, 1]), [("convK3", [8, 8, 1])],
        ⟨[⟨[8, 8, 1], false, false⟩], []⟩, false⟩) ∧
    (TuneOrRun id demoKernel false "missingKey" [7] none [] ⟨[], []⟩ =
      ⟨some (demoKernel.result 0 [7]), [],
        ⟨[⟨[7], false, false⟩], []⟩, true⟩) :=
  ⟨(tuneOrRun_cases id demoKernel true "convK3" [7] (some [[2]])
      [] ⟨[], []⟩).1 [[2]] rfl rfl,
    (tuneOrRun_cases id demoKernel false "convK3" [7] none
      [("convK3", [8, 8, 1])] ⟨[], []⟩).2.1 [8, 8, 1] (Or.inl rfl) rfl,
    (tuneOrRun_cases id demoKernel false "missingKey" [7] none
      [] ⟨[], []⟩).2.2 (Or.inl rfl) rfl⟩

/-- Witness for C7 at a concrete hit: two consecutive replay calls on key
`"convK3"` both pass the cached vector `[8,8,1]`. -/
theorem replay_preserves_table_witness :
    (TuneOrRun id demoKernel false "convK3" [7] none
        [("convK3", [8, 8, 1])] ⟨[], []⟩).table = [("convK3", [8, 8, 1])] ∧
    (TuneOrRun id demoKernel false "convK3" [7] none
        [("convK3", [8, 8, 1])] ⟨[], []⟩).state.trace =
      [⟨[8, 8, 1], false, false⟩] ∧
    (TuneOrRun id demoKernel false "convK3" [7] none
        (TuneOrRun id demoKernel false "convK3" [7] none
          [("convK3", [8, 8, 1])] ⟨[], []⟩).table
        (TuneOrRun id demoKernel false "convK3" [7] none
          [("convK3", [8, 8, 1])] ⟨[], []⟩).state).state.trace =
      [⟨[8, 8, 1], false, false⟩, ⟨[8, 8, 1], false, false⟩] := by
  obtain ⟨h1, h2⟩ := replay_preserves_table id demoKernel false "convK3" [7]
    none [("convK3", [8, 8, 1])] ⟨[], []⟩ (Or.inl rfl)
  obtain ⟨h3, h4⟩ := h2 [8, 8, 1] rfl
  exact ⟨h1, h3, h4⟩

end Mace
